import Mathlib

/-!
# RenderHelp — shallow embedding and verification

A shallow embedding of the RenderHelp software rasterizer (RenderHelp.h).
`float` values are modelled as exact rationals (`ℚ`); machine `int`/`int32_t`
values as `ℤ`; `uint32_t` colors as `ℕ` (all packed values stay below `2^32`).
The C cast `(int)` on a nonnegative-or-negative rational is modelled by
truncation toward zero (`truncInt`).
-/

namespace RenderHelp

/-- 2-component integer vector (`Vec2i` = `Vector<2,int>` in the source). -/
structure Vec2i where
  x : ℤ
  y : ℤ
deriving DecidableEq

/-- 2-component rational vector (`Vec2f`). -/
structure Vec2 where
  x : ℚ
  y : ℚ
deriving DecidableEq

/-- 3-component rational vector (`Vec3f`), fields aliased r,g,b in the source. -/
structure Vec3 where
  x : ℚ
  y : ℚ
  z : ℚ
deriving DecidableEq

/-- 4-component rational vector (`Vec4f`), fields aliased r,g,b,a in the source. -/
structure Vec4 where
  x : ℚ
  y : ℚ
  z : ℚ
  w : ℚ
deriving DecidableEq

instance : Sub Vec2i := ⟨fun a b => ⟨a.x - b.x, a.y - b.y⟩⟩
instance : Sub Vec2 := ⟨fun a b => ⟨a.x - b.x, a.y - b.y⟩⟩
instance : Sub Vec4 := ⟨fun a b => ⟨a.x - b.x, a.y - b.y, a.z - b.z, a.w - b.w⟩⟩

/-- `template<typename T> T Abs(T x) { return (x < 0)? (-x) : x; }` at `T = float`. -/
def Abs (x : ℚ) : ℚ := if x < 0 then -x else x

/-- `Abs` at `T = int`. -/
def AbsZ (x : ℤ) : ℤ := if x < 0 then -x else x

/-- `template<typename T> T Between(T xmin, T xmax, T x) { return Min(Max(xmin, x), xmax); }`
at `T = int`. -/
def Between (xmin xmax x : ℤ) : ℤ := min (max xmin x) xmax

/-- The C cast `(int)` applied to a `float`: truncation toward zero. -/
def truncInt (q : ℚ) : ℤ := if q < 0 then -(⌊-q⌋) else ⌊q⌋

/-- `vector_cross(const Vector<2, T>&, const Vector<2, T>&)` at `T = int`:
`a.x * b.y - a.y * b.x`. -/
def crossI (a b : Vec2i) : ℤ := a.x * b.y - a.y * b.x

/-- `vector_cross` on `Vec2f`. -/
def crossQ (a b : Vec2) : ℚ := a.x * b.y - a.y * b.x

/-- `vector_cross` on `Vec4f`: first three components cross product, `w` of the
first operand kept. -/
def crossV4 (a b : Vec4) : Vec4 :=
  ⟨a.y * b.z - a.z * b.y, a.z * b.x - a.x * b.z, a.x * b.y - a.y * b.x, a.w⟩

/-- `vector_to_color(const Vec4f&)`: each channel is `(int)(c * 255.0f)`
clamped to `[0,255]` by `Between`, packed as `0xAARRGGBB`
(`(r << 16) | (g << 8) | b | (a << 24)`). -/
def vector_to_color (color : Vec4) : ℕ :=
  ((Between 0 255 (truncInt (color.x * 255))).toNat <<< 16) |||
    ((Between 0 255 (truncInt (color.y * 255))).toNat <<< 8) |||
    (Between 0 255 (truncInt (color.z * 255))).toNat |||
    ((Between 0 255 (truncInt (color.w * 255))).toNat <<< 24)

/-- `vector_to_color(const Vec3f&)`: promotes via `xyz1()` (alpha = 1). -/
def vector_to_color3 (color : Vec3) : ℕ :=
  vector_to_color ⟨color.x, color.y, color.z, 1⟩

/-- `RenderHelp::IsTopLeft`: an edge from `a` to `b` is top-left iff it is
horizontal going right (`a.y == b.y && a.x < b.x`) or goes upward on a Y-down
screen (`a.y > b.y`). -/
def IsTopLeft (a b : Vec2i) : Prop :=
  (a.y = b.y ∧ a.x < b.x) ∨ a.y > b.y

instance (a b : Vec2i) : Decidable (IsTopLeft a b) := by
  unfold IsTopLeft; infer_instance

/-- The integer edge equation used in `DrawPrimitive` for the directed edge
`a → b` evaluated at pixel `(cx, cy)`:
`E = -(cx - a.x) * (b.y - a.y) + (cy - a.y) * (b.x - a.x)`. -/
def edgeEquation (a b : Vec2i) (cx cy : ℤ) : ℤ :=
  -(cx - a.x) * (b.y - a.y) + (cy - a.y) * (b.x - a.x)

/-- The coverage gate of the rasterization inner loop: the three sequential
`if (E < (TopLeft? 0 : 1)) continue;` tests for edges `p0→p1`, `p1→p2`,
`p2→p0`, as a conjunction. -/
def coveredPixel (p0 p1 p2 : Vec2i) (cx cy : ℤ) : Prop :=
  ¬(edgeEquation p0 p1 cx cy < (if IsTopLeft p0 p1 then 0 else 1)) ∧
  ¬(edgeEquation p1 p2 cx cy < (if IsTopLeft p1 p2 then 0 else 1)) ∧
  ¬(edgeEquation p2 p0 cx cy < (if IsTopLeft p2 p0 then 0 else 1))

instance (p0 p1 p2 : Vec2i) (cx cy : ℤ) : Decidable (coveredPixel p0 p1 p2 cx cy) := by
  unfold coveredPixel; infer_instance

/-- The depth-test/update step at one pixel (`DrawPrimitive` lines
`if (rhw < _depth_buffer[cy][cx]) continue; _depth_buffer[cy][cx] = rhw;`):
given the stored depth `d` and an incoming fragment `rhw`, the fragment is
discarded when `rhw < d`, otherwise `rhw` is stored. -/
def depthStep (d rhw : ℚ) : ℚ := if rhw < d then d else rhw

/-- The stored depth at one pixel after a stream of fragments has been
processed by `depthStep`, starting from depth `d`. -/
def depthRun (d : ℚ) (frags : List ℚ) : ℚ := frags.foldl depthStep d

/-- The sub-stream of fragments actually written (not discarded) when the
stream `frags` hits a pixel whose stored depth starts at `d`. -/
def writtenFrags (d : ℚ) : List ℚ → List ℚ
  | [] => []
  | r :: rs => if r < d then writtenFrags d rs else r :: writtenFrags r rs

/-- The spec's description of a color channel: `floor(x·255)` clamped to
`[0,255]`. Stated from the spec's words, to be compared with the code's
truncation-based `vector_to_color`. -/
def colorByteSpec (x : ℚ) : ℤ := Between 0 255 ⌊x * 255⌋

/-! ## Bitmap -/

/-- The `Bitmap` pixel container: a `w × h` image of packed 32-bit colors.
Pixel storage is modelled as a total function; all reads and writes go through
the bounds-checked `SetPixel`/`GetPixel`. -/
structure Bitmap where
  w : ℤ
  h : ℤ
  pix : ℤ → ℤ → ℕ

/-- `Bitmap::SetPixel`: writes `color` at `(x, y)` when in bounds, else no-op. -/
def Bitmap.SetPixel (bmp : Bitmap) (x y : ℤ) (color : ℕ) : Bitmap :=
  if 0 ≤ x ∧ x < bmp.w ∧ 0 ≤ y ∧ y < bmp.h then
    { bmp with pix := fun i j => if i = x ∧ j = y then color else bmp.pix i j }
  else bmp

/-- `Bitmap::GetPixel`: reads `(x, y)` when in bounds, else 0. -/
def Bitmap.GetPixel (bmp : Bitmap) (x y : ℤ) : ℕ :=
  if 0 ≤ x ∧ x < bmp.w ∧ 0 ≤ y ∧ y < bmp.h then bmp.pix x y else 0

/-- `Bitmap::Fill`: every pixel of the image becomes `color`. -/
def Bitmap.Fill (bmp : Bitmap) (color : ℕ) : Bitmap :=
  { bmp with pix := fun _ _ => color }

/-- `a, a+1, ..., a+n-1`. -/
def intRangeAux (a : ℤ) : ℕ → List ℤ
  | 0 => []
  | n + 1 => a :: intRangeAux (a + 1) n

/-- The integers from `a` to `b` inclusive, ascending (empty when `b < a`). -/
def intRange (a b : ℤ) : List ℤ := intRangeAux a (b + 1 - a).toNat

/-- The values visited by the C loop `for (v = v1; v != v2; v += inc)` with
`inc = (v1 <= v2) ? 1 : -1`: every integer from `v1` toward `v2`, excluding
`v2` itself, in loop order. -/
def stepValues (v1 v2 : ℤ) : List ℤ :=
  if v1 ≤ v2 then intRange v1 (v2 - 1) else (intRange (v2 + 1) v1).reverse

/-- The x-major Bresenham loop of `Bitmap::DrawLine` (case `dx >= dy`, after
the endpoint normalization `x1 <= x2`): steps `x` by 1 up to `x2`, accumulating
`rem += dy` and stepping `y` by `ystep` (painting an extra pixel) whenever
`rem >= dx`. The fuel is the number of remaining loop iterations. -/
def bresenhamX (dx dy ystep x2 : ℤ) : ℕ → ℤ → ℤ → ℤ → List (ℤ × ℤ)
  | 0, _, _, _ => []
  | n + 1, x, y, rem =>
    if x ≤ x2 then
      if rem + dy ≥ dx then
        (x, y) :: (x, y + ystep) ::
          bresenhamX dx dy ystep x2 n (x + 1) (y + ystep) (rem + dy - dx)
      else
        (x, y) :: bresenhamX dx dy ystep x2 n (x + 1) y (rem + dy)
    else []

/-- The y-major Bresenham loop of `Bitmap::DrawLine` (case `dx < dy`, after
the endpoint normalization `y1 <= y2`). -/
def bresenhamY (dx dy xstep y2 : ℤ) : ℕ → ℤ → ℤ → ℤ → List (ℤ × ℤ)
  | 0, _, _, _ => []
  | n + 1, x, y, rem =>
    if y ≤ y2 then
      if rem + dx ≥ dy then
        (x, y) :: (x + xstep, y) ::
          bresenhamY dx dy xstep y2 n (x + xstep) (y + 1) (rem + dx - dy)
      else
        (x, y) :: bresenhamY dx dy xstep y2 n x (y + 1) (rem + dx)
    else []

/-- The pixels painted by `Bitmap::DrawLine(x1, y1, x2, y2)`, in paint order:
single point, vertical sweep, horizontal sweep, or Bresenham (normalizing so
the major coordinate increases, exactly as the source swaps the endpoints). -/
def linePts (x1 y1 x2 y2 : ℤ) : List (ℤ × ℤ) :=
  if x1 = x2 ∧ y1 = y2 then [(x1, y1)]
  else if x1 = x2 then (stepValues y1 y2).map (fun y => (x1, y)) ++ [(x2, y2)]
  else if y1 = y2 then (stepValues x1 x2).map (fun x => (x, y1)) ++ [(x2, y2)]
  else
    let dx := if x1 < x2 then x2 - x1 else x1 - x2
    let dy := if y1 < y2 then y2 - y1 else y1 - y2
    if dx ≥ dy then
      if x2 < x1 then
        bresenhamX dx dy (if y1 ≥ y2 then 1 else -1) x1 (dx + 1).toNat x2 y2 0 ++ [(x1, y1)]
      else
        bresenhamX dx dy (if y2 ≥ y1 then 1 else -1) x2 (dx + 1).toNat x1 y1 0 ++ [(x2, y2)]
    else
      if y2 < y1 then
        bresenhamY dx dy (if x1 ≥ x2 then 1 else -1) y1 (dy + 1).toNat x2 y2 0 ++ [(x1, y1)]
      else
        bresenhamY dx dy (if x2 ≥ x1 then 1 else -1) y2 (dy + 1).toNat x1 y1 0 ++ [(x2, y2)]

/-- Paint a list of points with one color through `SetPixel`, in order. -/
def paintPts (bmp : Bitmap) (pts : List (ℤ × ℤ)) (color : ℕ) : Bitmap :=
  pts.foldl (fun b p => b.SetPixel p.1 p.2 color) bmp

/-- `Bitmap::DrawLine`. -/
def Bitmap.DrawLine (bmp : Bitmap) (x1 y1 x2 y2 : ℤ) (color : ℕ) : Bitmap :=
  paintPts bmp (linePts x1 y1 x2 y2) color

/-! ## Shaders and render state -/

instance : Zero Vec2 := ⟨⟨0, 0⟩⟩
instance : Zero Vec3 := ⟨⟨0, 0, 0⟩⟩
instance : Zero Vec4 := ⟨⟨0, 0, 0, 0⟩⟩
instance : Add Vec2 := ⟨fun a b => ⟨a.x + b.x, a.y + b.y⟩⟩
instance : Add Vec3 := ⟨fun a b => ⟨a.x + b.x, a.y + b.y, a.z + b.z⟩⟩
instance : Add Vec4 := ⟨fun a b => ⟨a.x + b.x, a.y + b.y, a.z + b.z, a.w + b.w⟩⟩
instance : HMul ℚ Vec2 Vec2 := ⟨fun c v => ⟨c * v.x, c * v.y⟩⟩
instance : HMul ℚ Vec3 Vec3 := ⟨fun c v => ⟨c * v.x, c * v.y, c * v.z⟩⟩
instance : HMul ℚ Vec4 Vec4 := ⟨fun c v => ⟨c * v.x, c * v.y, c * v.z, c * v.w⟩⟩

/-- `ShaderContext`: four integer-keyed varying maps (`std::map<int, T>`),
modelled as association lists; `operator[]` on a missing key
default-constructs 0, modelled by `lookupVar`. -/
structure ShaderContext where
  varying_float : List (ℤ × ℚ)
  varying_vec2f : List (ℤ × Vec2)
  varying_vec3f : List (ℤ × Vec3)
  varying_vec4f : List (ℤ × Vec4)

/-- `std::map<int,T>::operator[]`: first binding of the key, default 0. -/
def lookupVar {α : Type} [Zero α] (l : List (ℤ × α)) (k : ℤ) : α :=
  match l.find? (fun p => p.1 == k) with
  | some p => p.2
  | none => 0

/-- The cleared context produced at the start of each vertex. -/
def emptyContext : ShaderContext := ⟨[], [], [], []⟩

/-- Vertex shader: takes the vertex index 0-2 and produces the homogeneous
position together with the varying envelope it wrote into the (cleared)
output context. -/
def VertexShader : Type := ℕ → Vec4 × ShaderContext

/-- Pixel shader: interpolated context in, color out. -/
def PixelShader : Type := ShaderContext → Vec4

/-- Per-draw vertex record (`RenderHelp::Vertex`). -/
structure Vertex where
  context : ShaderContext
  rhw : ℚ
  pos : Vec4
  spf : Vec2
  spi : Vec2i

/-- The rasterizer state (`class RenderHelp`). The depth buffer is a total
function; only in-bounds entries are ever read or written. The frame buffer is
`none` exactly when the rasterizer is uninitialized. -/
structure RenderState where
  frame_buffer : Option Bitmap
  depth_buffer : ℤ → ℤ → ℚ
  fb_width : ℤ
  fb_height : ℤ
  color_fg : ℕ
  color_bg : ℕ
  render_frame : Bool
  render_pixel : Bool
  vertex_shader : Option VertexShader
  pixel_shader : Option PixelShader

/-- `RenderHelp::Clear`: fill the frame buffer with the background color and
zero the depth buffer. -/
def Clear (st : RenderState) : RenderState :=
  { st with
    frame_buffer := st.frame_buffer.map (fun fb => fb.Fill st.color_bg)
    depth_buffer := fun _ _ => 0 }

/-! ## DrawPrimitive -/

/-- The per-vertex phase of `DrawPrimitive` for vertex `k`: clear the varying
context, run the vertex shader, trivially reject against the CVV, otherwise
compute `rhw = 1/w`, the perspective divide `pos *= rhw`, the viewport-mapped
screen position `spf` and the rounded integer position `spi`. -/
def processVertex (vs : VertexShader) (W H : ℤ) (k : ℕ) : Option Vertex :=
  let pos := (vs k).1
  let w := pos.w
  if w = 0 then none
  else if pos.z < 0 ∨ pos.z > w then none
  else if pos.x < -w ∨ pos.x > w then none
  else if pos.y < -w ∨ pos.y > w then none
  else
    let rhw : ℚ := 1 / w
    let pos2 : Vec4 := ⟨pos.x * rhw, pos.y * rhw, pos.z * rhw, pos.w * rhw⟩
    let spfx : ℚ := (pos2.x + 1) * (W : ℚ) * (1 / 2)
    let spfy : ℚ := (1 - pos2.y) * (H : ℚ) * (1 / 2)
    some ⟨(vs k).2, rhw, pos2, ⟨spfx, spfy⟩,
      ⟨truncInt (spfx + 1 / 2), truncInt (spfy + 1 / 2)⟩⟩

/-- The clamped screen bounding box of the three vertices, maintained exactly
as the `k`-loop does (`Between` after every `Min`/`Max`): returns
`(min_x, max_x, min_y, max_y)`. -/
def boundingBox (W H : ℤ) (v0 v1 v2 : Vertex) : ℤ × ℤ × ℤ × ℤ :=
  let minx1 := Between 0 (W - 1) (min (Between 0 (W - 1) v0.spi.x) v1.spi.x)
  let maxx1 := Between 0 (W - 1) (max (Between 0 (W - 1) v0.spi.x) v1.spi.x)
  let miny1 := Between 0 (H - 1) (min (Between 0 (H - 1) v0.spi.y) v1.spi.y)
  let maxy1 := Between 0 (H - 1) (max (Between 0 (H - 1) v0.spi.y) v1.spi.y)
  (Between 0 (W - 1) (min minx1 v2.spi.x), Between 0 (W - 1) (max maxx1 v2.spi.x),
    Between 0 (H - 1) (min miny1 v2.spi.y), Between 0 (H - 1) (max maxy1 v2.spi.y))

/-- Interpolation of the varying envelope at one pixel with the
perspective-correct weights `c0, c1, c2`: for every key of the first vertex's
envelope, `c0·v0 + c1·v1 + c2·v2` (missing keys in the other envelopes read as
0, as `std::map::operator[]` default-constructs). -/
def interpContext (i0 i1 i2 : ShaderContext) (c0 c1 c2 : ℚ) : ShaderContext where
  varying_float := i0.varying_float.map (fun p =>
    (p.1, c0 * lookupVar i0.varying_float p.1 + c1 * lookupVar i1.varying_float p.1 +
      c2 * lookupVar i2.varying_float p.1))
  varying_vec2f := i0.varying_vec2f.map (fun p =>
    (p.1, c0 * lookupVar i0.varying_vec2f p.1 + c1 * lookupVar i1.varying_vec2f p.1 +
      c2 * lookupVar i2.varying_vec2f p.1))
  varying_vec3f := i0.varying_vec3f.map (fun p =>
    (p.1, c0 * lookupVar i0.varying_vec3f p.1 + c1 * lookupVar i1.varying_vec3f p.1 +
      c2 * lookupVar i2.varying_vec3f p.1))
  varying_vec4f := i0.varying_vec4f.map (fun p =>
    (p.1, c0 * lookupVar i0.varying_vec4f p.1 + c1 * lookupVar i1.varying_vec4f p.1 +
      c2 * lookupVar i2.varying_vec4f p.1))

/-- The body of the rasterization inner loop at pixel `(cx, cy)`, acting on
the pair (frame buffer, depth buffer): coverage gate, barycentric weights at
the pixel center, degenerate-area skip, depth test and write, perspective
correction, varying interpolation, pixel shader (color `(0,0,0,0)` when
absent), frame-buffer write. -/
def shadePixel (ps : Option PixelShader) (t0 t1 t2 : Vertex)
    (acc : Bitmap × (ℤ → ℤ → ℚ)) (cx cy : ℤ) : Bitmap × (ℤ → ℤ → ℚ) :=
  if coveredPixel t0.spi t1.spi t2.spi cx cy then
    let px : Vec2 := ⟨(cx : ℚ) + 1 / 2, (cy : ℚ) + 1 / 2⟩
    let s0 := t0.spf - px
    let s1 := t1.spf - px
    let s2 := t2.spf - px
    let a := Abs (crossQ s1 s2)
    let b := Abs (crossQ s2 s0)
    let c := Abs (crossQ s0 s1)
    let s := a + b + c
    if s = 0 then acc
    else
      let aN := a * (1 / s)
      let bN := b * (1 / s)
      let cN := c * (1 / s)
      let rhw := t0.rhw * aN + t1.rhw * bN + t2.rhw * cN
      if rhw < acc.2 cy cx then acc
      else
        let depth2 := fun j i => if j = cy ∧ i = cx then rhw else acc.2 j i
        let w : ℚ := 1 / (if rhw ≠ 0 then rhw else 1)
        let c0 := t0.rhw * aN * w
        let c1 := t1.rhw * bN * w
        let c2 := t2.rhw * cN * w
        let input := interpContext t0.context t1.context t2.context c0 c1 c2
        let color : Vec4 := match ps with
          | some f => f input
          | none => ⟨0, 0, 0, 0⟩
        (acc.1.SetPixel cx cy (vector_to_color color), depth2)
  else acc

/-- The pixels of the clamped bounding box in loop order (`cy` outer,
`cx` inner), as `(cx, cy)` pairs. -/
def pixelList (minx maxx miny maxy : ℤ) : List (ℤ × ℤ) :=
  (intRange miny maxy).flatMap (fun cy => (intRange minx maxx).map (fun cx => (cx, cy)))

/-- The fill phase of `DrawPrimitive` after the orientation swap: `t0 t1 t2`
are the (possibly reordered) vertices used for coverage and interpolation,
`q0 q1 q2` the original `_vertex` screen positions used by the second
wireframe pass. Rejects on zero integer screen area, otherwise walks the
bounding box, then re-draws the wireframe on top. -/
def fillStage (st : RenderState) (fb : Bitmap) (bb : ℤ × ℤ × ℤ × ℤ)
    (t0 t1 t2 : Vertex) (q0 q1 q2 : Vec2i) : Bool × RenderState :=
  let s := AbsZ (crossI (t1.spi - t0.spi) (t2.spi - t0.spi))
  if s ≤ 0 then (false, { st with frame_buffer := some fb })
  else
    let res := (pixelList bb.1 bb.2.1 bb.2.2.1 bb.2.2.2).foldl
      (fun acc p => shadePixel st.pixel_shader t0 t1 t2 acc p.1 p.2)
      (fb, st.depth_buffer)
    let fb2 := if st.render_frame then
        ((res.1.DrawLine q0.x q0.y q1.x q1.y st.color_fg).DrawLine
            q0.x q0.y q2.x q2.y st.color_fg).DrawLine q2.x q2.y q1.x q1.y st.color_fg
      else res.1
    (true, { st with frame_buffer := some fb2, depth_buffer := res.2 })

/-- `RenderHelp::DrawPrimitive`: precondition check, per-vertex phase with
whole-triangle trivial reject, bounding box, first wireframe pass, fill-mode
check, facing test with vertex-1/2 swap for back-facing triangles, degenerate
reject, fill phase, second wireframe pass. Returns the drawn flag and the new
state. -/
def DrawPrimitive (st : RenderState) : Bool × RenderState :=
  match st.frame_buffer, st.vertex_shader with
  | some fb, some vs =>
    match processVertex vs st.fb_width st.fb_height 0,
        processVertex vs st.fb_width st.fb_height 1,
        processVertex vs st.fb_width st.fb_height 2 with
    | some v0, some v1, some v2 =>
      let bb := boundingBox st.fb_width st.fb_height v0 v1 v2
      let fb1 := if st.render_frame then
          ((fb.DrawLine v0.spi.x v0.spi.y v1.spi.x v1.spi.y st.color_fg).DrawLine
              v0.spi.x v0.spi.y v2.spi.x v2.spi.y st.color_fg).DrawLine
            v2.spi.x v2.spi.y v1.spi.x v1.spi.y st.color_fg
        else fb
      if st.render_pixel = false then (false, { st with frame_buffer := some fb1 })
      else
        let normal := crossV4 (v1.pos - v0.pos) (v2.pos - v0.pos)
        if normal.z > 0 then fillStage st fb1 bb v0 v2 v1 v0.spi v1.spi v2.spi
        else if normal.z = 0 then (false, { st with frame_buffer := some fb1 })
        else fillStage st fb1 bb v0 v1 v2 v0.spi v1.spi v2.spi
    | _, _, _ => (false, st)
  | _, _ => (false, st)

/-- The vertex-shader wrapper that swaps the roles of vertex 1 and vertex 2
(reversed winding): index 1 reads the data of vertex 2 and vice versa. -/
def swapVS (vs : VertexShader) : VertexShader :=
  fun k => vs (if k = 1 then 2 else if k = 2 then 1 else k)

/-! ## Concrete configurations used as witnesses and counterexamples -/

/-- A 2×2 frame buffer filled with the default background color. -/
def testBitmap : Bitmap := ⟨2, 2, fun _ _ => 0xff191970⟩

/-- A freshly initialized 2×2 rasterizer with default colors and render state
(no wireframe, fill on), a vertex shader slot `vs` and pixel shader slot `ps`. -/
def testState (vs : Option VertexShader) (ps : Option PixelShader) : RenderState where
  frame_buffer := some testBitmap
  depth_buffer := fun _ _ => 0
  fb_width := 2
  fb_height := 2
  color_fg := 0xffffffff
  color_bg := 0xff191970
  render_frame := false
  render_pixel := true
  vertex_shader := vs
  pixel_shader := ps

/-- A vertex shader producing the in-frustum triangle with NDC corners
`(-1,1)`, `(1,1)`, `(-1,-1)` at `w = 1`, no varyings. -/
def vsTri : VertexShader := fun k =>
  (if k = 0 then ⟨-1, 1, 0, 1⟩ else if k = 1 then ⟨1, 1, 0, 1⟩ else ⟨-1, -1, 0, 1⟩,
    emptyContext)

/-- The vertex records `vsTri` produces on a 2×2 target. -/
def vtx0 : Vertex := ⟨emptyContext, 1, ⟨-1, 1, 0, 1⟩, ⟨0, 0⟩, ⟨0, 0⟩⟩

def vtx1 : Vertex := ⟨emptyContext, 1, ⟨1, 1, 0, 1⟩, ⟨2, 0⟩, ⟨2, 0⟩⟩

def vtx2 : Vertex := ⟨emptyContext, 1, ⟨-1, -1, 0, 1⟩, ⟨0, 2⟩, ⟨0, 2⟩⟩

/-- An initialized rasterizer with a vertex shader but no pixel shader. -/
def stNoPS : RenderState := testState (some vsTri) none

/-- An uninitialized rasterizer (no frame buffer), shaders set. -/
def stUninit : RenderState :=
  { testState (some vsTri) none with frame_buffer := none }

/-- A vertex shader whose position is outside the frustum (`z = -1 < 0`). -/
def vsOut : VertexShader := fun _ => (⟨0, 0, -1, 1⟩, emptyContext)

/-- Initialized state with the out-of-frustum shader. -/
def stOut : RenderState := testState (some vsOut) none

/-- A degenerate vertex shader: all three vertices at the NDC origin. -/
def vsCenter : VertexShader := fun _ => (⟨0, 0, 0, 1⟩, emptyContext)

/-- The vertex record `vsCenter` produces on a 2×2 target. -/
def vtxC : Vertex := ⟨emptyContext, 1, ⟨0, 0, 0, 1⟩, ⟨1, 1⟩, ⟨1, 1⟩⟩

/-- Degenerate triangle, wireframe overlay enabled. -/
def stDegenWire : RenderState :=
  { testState (some vsCenter) none with render_frame := true }

/-- Degenerate triangle, wireframe overlay disabled. -/
def stDegenNoWire : RenderState := testState (some vsCenter) none

/-! ## Helper lemmas -/

@[simp] theorem vec2i_sub_x (a b : Vec2i) : (a - b).x = a.x - b.x := rfl

@[simp] theorem vec2i_sub_y (a b : Vec2i) : (a - b).y = a.y - b.y := rfl

@[simp] theorem vec2_sub_x (a b : Vec2) : (a - b).x = a.x - b.x := rfl

@[simp] theorem vec2_sub_y (a b : Vec2) : (a - b).y = a.y - b.y := rfl

@[simp] theorem vec4_sub_x (a b : Vec4) : (a - b).x = a.x - b.x := rfl

@[simp] theorem vec4_sub_y (a b : Vec4) : (a - b).y = a.y - b.y := rfl

@[simp] theorem vec4_sub_z (a b : Vec4) : (a - b).z = a.z - b.z := rfl

@[simp] theorem vec4_sub_w (a b : Vec4) : (a - b).w = a.w - b.w := rfl

theorem depthStep_ge (d r : ℚ) : d ≤ depthStep d r := by
  unfold depthStep; split <;> linarith

theorem depthRun_ge (rs : List ℚ) : ∀ d : ℚ, d ≤ depthRun d rs := by
  induction rs with
  | nil => intro d; exact le_refl d
  | cons r rs ih =>
    intro d
    calc d ≤ depthStep d r := depthStep_ge d r
    _ ≤ depthRun (depthStep d r) rs := ih _
    _ = depthRun d (r :: rs) := rfl

theorem depthRun_of_writtenFrags_nil (rs : List ℚ) :
    ∀ d : ℚ, writtenFrags d rs = [] → depthRun d rs = d := by
  induction rs with
  | nil => intro d _; rfl
  | cons r rs ih =>
    intro d h
    unfold writtenFrags at h
    by_cases hr : r < d
    · rw [if_pos hr] at h
      have : depthRun d (r :: rs) = depthRun d rs := by
        show depthRun (depthStep d r) rs = depthRun d rs
        rw [depthStep, if_pos hr]
      rw [this]; exact ih d h
    · rw [if_neg hr] at h; exact absurd h (List.cons_ne_nil r _)

theorem depthRun_is_max_of_written (rs : List ℚ) :
    ∀ d : ℚ, writtenFrags d rs ≠ [] →
      depthRun d rs ∈ writtenFrags d rs ∧
        ∀ x ∈ writtenFrags d rs, x ≤ depthRun d rs := by
  induction rs with
  | nil => intro d h; exact absurd rfl h
  | cons r rs ih =>
    intro d h
    by_cases hr : r < d
    · have hw : writtenFrags d (r :: rs) = writtenFrags d rs := by
        rw [writtenFrags, if_pos hr]
      have hd : depthRun d (r :: rs) = depthRun d rs := by
        show depthRun (depthStep d r) rs = depthRun d rs
        rw [depthStep, if_pos hr]
      rw [hw, hd]
      exact ih d (by rw [hw] at h; exact h)
    · have hw : writtenFrags d (r :: rs) = r :: writtenFrags r rs := by
        rw [writtenFrags, if_neg hr]
      have hd : depthRun d (r :: rs) = depthRun r rs := by
        show depthRun (depthStep d r) rs = depthRun r rs
        rw [depthStep, if_neg hr]
      rw [hw, hd]
      by_cases htail : writtenFrags r rs = []
      · rw [htail, depthRun_of_writtenFrags_nil rs r htail]
        refine ⟨List.mem_singleton_self r, ?_⟩
        intro x hx
        rw [List.mem_singleton] at hx
        exact le_of_eq hx
      · obtain ⟨hmem, hub⟩ := ih r htail
        refine ⟨List.mem_cons_of_mem r hmem, ?_⟩
        intro x hx
        rcases List.mem_cons.mp hx with hx | hx
        · exact hx ▸ depthRun_ge rs r
        · exact hub x hx

/-- Evaluation helper: `truncInt q = n` for a nonnegative result. -/
theorem truncInt_eq_of_nonneg (q : ℚ) (n : ℤ) (h3 : 0 ≤ n) (h1 : (n : ℚ) ≤ q)
    (h2 : q < n + 1) : truncInt q = n := by
  have h0 : (0 : ℚ) ≤ q := le_trans (by exact_mod_cast h3) h1
  unfold truncInt
  rw [if_neg (not_lt.mpr h0)]
  exact Int.floor_eq_iff.mpr ⟨h1, by exact_mod_cast h2⟩

/-- Evaluation helper: `truncInt q = -⌊-q⌋` clamps to something nonpositive
when `q < 0`. -/
theorem truncInt_neg_eq (q : ℚ) (n : ℤ) (hq : q < 0) (h1 : (n : ℚ) ≤ -q)
    (h2 : -q < n + 1) : truncInt q = -n := by
  unfold truncInt
  rw [if_pos hq]
  have : ⌊-q⌋ = n := Int.floor_eq_iff.mpr ⟨h1, by exact_mod_cast h2⟩
  omega

theorem between_truncInt_eq_between_floor (q : ℚ) :
    Between 0 255 (truncInt q) = Between 0 255 ⌊q⌋ := by
  unfold truncInt Between
  by_cases hq : q < 0
  · rw [if_pos hq]
    have h1 : 0 ≤ ⌊-q⌋ := Int.floor_nonneg.mpr (by linarith)
    have h2 : ⌊q⌋ ≤ 0 := by
      calc ⌊q⌋ ≤ ⌊(0 : ℚ)⌋ := Int.floor_le_floor (le_of_lt hq)
      _ = 0 := Int.floor_zero
    omega
  · rw [if_neg hq]

/-- A vertex failing any trivial-reject test yields `none`. -/
theorem processVertex_none_of_reject (vs : VertexShader) (W H : ℤ) (k : ℕ)
    (h : (vs k).1.w = 0 ∨ (vs k).1.z < 0 ∨ (vs k).1.z > (vs k).1.w ∨
      (vs k).1.x < -(vs k).1.w ∨ (vs k).1.x > (vs k).1.w ∨
      (vs k).1.y < -(vs k).1.w ∨ (vs k).1.y > (vs k).1.w) :
    processVertex vs W H k = none := by
  unfold processVertex
  dsimp only
  split_ifs with h1 h2 h3 h4 <;> try rfl
  exfalso; tauto

/-- If some vertex is rejected, `DrawPrimitive` returns `false` with the
state untouched. -/
theorem drawPrimitive_false_of_vertex_none (st : RenderState) (fb : Bitmap)
    (vs : VertexShader) (hfb : st.frame_buffer = some fb)
    (hvs : st.vertex_shader = some vs)
    (h : processVertex vs st.fb_width st.fb_height 0 = none ∨
      processVertex vs st.fb_width st.fb_height 1 = none ∨
      processVertex vs st.fb_width st.fb_height 2 = none) :
    DrawPrimitive st = (false, st) := by
  unfold DrawPrimitive
  simp only [hfb, hvs]
  rcases h with h | h | h
  · simp only [h]
  · cases hp0 : processVertex vs st.fb_width st.fb_height 0 with
    | none => simp only [hp0]
    | some v0 => simp only [hp0, h]
  · cases hp0 : processVertex vs st.fb_width st.fb_height 0 with
    | none => simp only [hp0]
    | some v0 =>
      cases hp1 : processVertex vs st.fb_width st.fb_height 1 with
      | none => simp only [hp0, hp1]
      | some v1 => simp only [hp0, hp1, h]

/-- Reassembling the state record with its own fields (the frame buffer,
vertex shader and wireframe flag written through their known values) is the
identity. -/
theorem renderState_eta (st : RenderState) (fb : Bitmap) (vs : VertexShader)
    (hfb : st.frame_buffer = some fb) (hvs : st.vertex_shader = some vs)
    (hrf : st.render_frame = false) :
    ({ frame_buffer := some fb, depth_buffer := st.depth_buffer,
       fb_width := st.fb_width, fb_height := st.fb_height,
       color_fg := st.color_fg, color_bg := st.color_bg,
       render_frame := false, render_pixel := st.render_pixel,
       vertex_shader := some vs, pixel_shader := st.pixel_shader } : RenderState) = st := by
  cases st
  simp_all

/-- Replacing the frame buffer by its current value is the identity. -/
theorem renderState_eta_fb (st : RenderState) (fb : Bitmap)
    (hfb : st.frame_buffer = some fb) :
    ({ frame_buffer := some fb, depth_buffer := st.depth_buffer,
       fb_width := st.fb_width, fb_height := st.fb_height,
       color_fg := st.color_fg, color_bg := st.color_bg,
       render_frame := st.render_frame, render_pixel := st.render_pixel,
       vertex_shader := st.vertex_shader, pixel_shader := st.pixel_shader } :
      RenderState) = st := by
  cases st
  simp_all

/-- `AbsZ` of the opposite cross product. -/
theorem absZ_crossI_swap (a b : Vec2i) : AbsZ (crossI b a) = AbsZ (crossI a b) := by
  have h : crossI b a = -crossI a b := by unfold crossI; ring
  rw [h]
  unfold AbsZ
  split_ifs <;> omega

/-- Evaluation: `vsTri` vertex 0 on the 2×2 target. -/
theorem processVertex_vsTri_0 : processVertex vsTri 2 2 0 = some vtx0 := by
  norm_num [processVertex, vsTri, truncInt, vtx0, Vertex.mk.injEq, Vec4.mk.injEq,
    Vec2.mk.injEq, Vec2i.mk.injEq, Int.floor_eq_iff]

/-- Evaluation: `vsTri` vertex 1 on the 2×2 target. -/
theorem processVertex_vsTri_1 : processVertex vsTri 2 2 1 = some vtx1 := by
  norm_num [processVertex, vsTri, truncInt, vtx1, Vertex.mk.injEq, Vec4.mk.injEq,
    Vec2.mk.injEq, Vec2i.mk.injEq, Int.floor_eq_iff]

/-- Evaluation: `vsTri` vertex 2 on the 2×2 target. -/
theorem processVertex_vsTri_2 : processVertex vsTri 2 2 2 = some vtx2 := by
  norm_num [processVertex, vsTri, truncInt, vtx2, Vertex.mk.injEq, Vec4.mk.injEq,
    Vec2.mk.injEq, Vec2i.mk.injEq, Int.floor_eq_iff]

/-- Evaluation: `vsCenter` on the 2×2 target (any vertex index). -/
theorem processVertex_vsCenter (k : ℕ) : processVertex vsCenter 2 2 k = some vtxC := by
  norm_num [processVertex, vsCenter, truncInt, vtxC, Vertex.mk.injEq, Vec4.mk.injEq,
    Vec2.mk.injEq, Vec2i.mk.injEq, Int.floor_eq_iff]

/-- Evaluation: the all-zero color packs to 0. -/
theorem vector_to_color_zero : vector_to_color ⟨0, 0, 0, 0⟩ = 0 := by
  have h : (Between 0 255 (truncInt ((0 : ℚ) * 255))).toNat = 0 := by
    rw [truncInt_eq_of_nonneg _ 0 (by norm_num) (by norm_num) (by norm_num)]; rfl
  show (Between 0 255 (truncInt ((0 : ℚ) * 255))).toNat <<< 16 |||
      (Between 0 255 (truncInt ((0 : ℚ) * 255))).toNat <<< 8 |||
      (Between 0 255 (truncInt ((0 : ℚ) * 255))).toNat |||
      (Between 0 255 (truncInt ((0 : ℚ) * 255))).toNat <<< 24 = 0
  rw [h]; decide

/-- `truncInt` is plain floor on nonnegative arguments. -/
theorem truncInt_eq_floor_of_nonneg (q : ℚ) (h : 0 ≤ q) : truncInt q = ⌊q⌋ := by
  unfold truncInt
  rw [if_neg (not_lt.mpr h)]

/-- Inversion of an accepted vertex: the reject tests all failed, `w > 0`,
and the produced record is exactly the divided/mapped one. -/
theorem processVertex_inv (vs : VertexShader) (W H : ℤ) (k : ℕ) (v : Vertex)
    (h : processVertex vs W H k = some v) :
    0 < (vs k).1.w ∧
    -(vs k).1.w ≤ (vs k).1.x ∧ (vs k).1.x ≤ (vs k).1.w ∧
    -(vs k).1.w ≤ (vs k).1.y ∧ (vs k).1.y ≤ (vs k).1.w ∧
    0 ≤ (vs k).1.z ∧ (vs k).1.z ≤ (vs k).1.w ∧
    v = ⟨(vs k).2, 1 / (vs k).1.w,
      ⟨(vs k).1.x * (1 / (vs k).1.w), (vs k).1.y * (1 / (vs k).1.w),
        (vs k).1.z * (1 / (vs k).1.w), (vs k).1.w * (1 / (vs k).1.w)⟩,
      ⟨((vs k).1.x * (1 / (vs k).1.w) + 1) * (W : ℚ) * (1 / 2),
        (1 - (vs k).1.y * (1 / (vs k).1.w)) * (H : ℚ) * (1 / 2)⟩,
      ⟨truncInt (((vs k).1.x * (1 / (vs k).1.w) + 1) * (W : ℚ) * (1 / 2) + 1 / 2),
        truncInt ((1 - (vs k).1.y * (1 / (vs k).1.w)) * (H : ℚ) * (1 / 2) + 1 / 2)⟩⟩ := by
  unfold processVertex at h
  dsimp only at h
  split_ifs at h with h1 h2 h3 h4
  push_neg at h2 h3 h4
  rw [Option.some.injEq] at h
  have hw : 0 < (vs k).1.w := lt_of_le_of_ne (le_trans h2.1 h2.2) (Ne.symm h1)
  exact ⟨hw, h3.1, h3.2, h4.1, h4.2, h2.1, h2.2, h.symm⟩

/-! ## Claim theorems -/

/-- C1: a pixel of the clamped bounding box passes the coverage gate of the
rasterization inner loop (and only then proceeds to the shading stage) iff for
each of the three directed edges the integer edge function
`E = -(cx - a.x)*(b.y - a.y) + (cy - a.y)*(b.x - a.x)` satisfies `E ≥ 0` when
the edge is top-left ((a.y = b.y and a.x < b.x) or a.y > b.y) and `E ≥ 1`
otherwise. -/
theorem covered_iff_edge_conditions (p0 p1 p2 : Vec2i) (cx cy : ℤ) :
    coveredPixel p0 p1 p2 cx cy ↔
      (-(cx - p0.x) * (p1.y - p0.y) + (cy - p0.y) * (p1.x - p0.x) ≥
        (if (p0.y = p1.y ∧ p0.x < p1.x) ∨ p0.y > p1.y then 0 else 1)) ∧
      (-(cx - p1.x) * (p2.y - p1.y) + (cy - p1.y) * (p2.x - p1.x) ≥
        (if (p1.y = p2.y ∧ p1.x < p2.x) ∨ p1.y > p2.y then 0 else 1)) ∧
      (-(cx - p2.x) * (p0.y - p2.y) + (cy - p2.y) * (p0.x - p2.x) ≥
        (if (p2.y = p0.y ∧ p2.x < p0.x) ∨ p2.y > p0.y then 0 else 1)) := by
  unfold coveredPixel edgeEquation IsTopLeft
  simp only [not_lt, ge_iff_le]

/-- C2: at every pixel, the stored depth after a stream of fragments is
processed (starting from the cleared depth 0) equals the maximum interpolated
`rhw` over the fragments actually written: it is one of the written values and
an upper bound of all of them; moreover a single step never decreases the
stored depth (a fragment with `rhw < depth` is discarded, otherwise the depth
becomes `rhw`). -/
theorem depth_eq_max_written (frags : List ℚ)
    (h : writtenFrags 0 frags ≠ []) :
    depthRun 0 frags ∈ writtenFrags 0 frags ∧
      (∀ x ∈ writtenFrags 0 frags, x ≤ depthRun 0 frags) ∧
      (∀ d r : ℚ, d ≤ depthStep d r) := by
  obtain ⟨hmem, hub⟩ := depthRun_is_max_of_written frags 0 h
  exact ⟨hmem, hub, depthStep_ge⟩

theorem depth_eq_max_written_witness :
    writtenFrags 0 [1/2, 1/4, 3/4] ≠ [] ∧
      (depthRun 0 [1/2, 1/4, 3/4] ∈ writtenFrags 0 [1/2, 1/4, 3/4] ∧
        (∀ x ∈ writtenFrags 0 [1/2, 1/4, 3/4], x ≤ depthRun 0 [1/2, 1/4, 3/4]) ∧
        (∀ d r : ℚ, d ≤ depthStep d r)) :=
  ⟨by norm_num [writtenFrags]; simp,
    depth_eq_max_written [1/2, 1/4, 3/4] (by norm_num [writtenFrags]; simp)⟩

/-- Evaluation of `vector_to_color` at the spec's example color. -/
theorem vector_to_color_half_eval :
    vector_to_color ⟨2, -1, 1/2, 1⟩ = 0xFFFF007F := by
  have hX : (Between 0 255 (truncInt ((2 : ℚ) * 255))).toNat = 255 := by
    rw [truncInt_eq_of_nonneg _ 510 (by norm_num) (by norm_num) (by norm_num)]; rfl
  have hY : (Between 0 255 (truncInt ((-1 : ℚ) * 255))).toNat = 0 := by
    rw [truncInt_neg_eq _ 255 (by norm_num) (by norm_num) (by norm_num)]; rfl
  have hZ : (Between 0 255 (truncInt ((1 / 2 : ℚ) * 255))).toNat = 127 := by
    rw [truncInt_eq_of_nonneg _ 127 (by norm_num) (by norm_num) (by norm_num)]; rfl
  have hW : (Between 0 255 (truncInt ((1 : ℚ) * 255))).toNat = 255 := by
    rw [truncInt_eq_of_nonneg _ 255 (by norm_num) (by norm_num) (by norm_num)]; rfl
  show (Between 0 255 (truncInt ((2 : ℚ) * 255))).toNat <<< 16 |||
      (Between 0 255 (truncInt ((-1 : ℚ) * 255))).toNat <<< 8 |||
      (Between 0 255 (truncInt ((1 / 2 : ℚ) * 255))).toNat |||
      (Between 0 255 (truncInt ((1 : ℚ) * 255))).toNat <<< 24 = 0xFFFF007F
  rw [hX, hY, hZ, hW]; decide

/-- C4 counterexample: the pixel-shader color `(2, -1, 0.5, 1)` is packed by
`vector_to_color` as `0xFFFF007F` — blue byte 127, not 128 as the claim
states, because `(int)(0.5 * 255) = 127` (`floor(127.5) = 127`). -/
theorem vector_to_color_half_blue_is_127 :
    vector_to_color ⟨2, -1, 1/2, 1⟩ = 0xFFFF007F ∧
      vector_to_color ⟨2, -1, 1/2, 1⟩ ≠ 0xFFFF0080 := by
  rw [vector_to_color_half_eval]
  exact ⟨rfl, by decide⟩

/-- C4 (amended): the frame-buffer write converts each channel by clamping
`floor(x·255)` to `[0,255]` and packs the bytes in `0xAARRGGBB` layout; a Vec3
color is promoted with alpha 1; and a pixel shader returning `(2, -1, 0.5, 1)`
writes channel bytes `(255, 0, 127, 255)`. -/
theorem vector_to_color_spec (c : Vec4) (c3 : Vec3) :
    vector_to_color c =
      ((colorByteSpec c.w).toNat <<< 24) ||| ((colorByteSpec c.x).toNat <<< 16) |||
        ((colorByteSpec c.y).toNat <<< 8) ||| (colorByteSpec c.z).toNat ∧
      vector_to_color3 c3 = vector_to_color ⟨c3.x, c3.y, c3.z, 1⟩ ∧
      vector_to_color ⟨2, -1, 1/2, 1⟩ = 0xFFFF007F := by
  refine ⟨?_, rfl, vector_to_color_half_eval⟩
  unfold vector_to_color colorByteSpec
  rw [between_truncInt_eq_between_floor, between_truncInt_eq_between_floor,
    between_truncInt_eq_between_floor, between_truncInt_eq_between_floor]
  generalize (Between 0 255 ⌊c.x * 255⌋).toNat = r
  generalize (Between 0 255 ⌊c.y * 255⌋).toNat = g
  generalize (Between 0 255 ⌊c.z * 255⌋).toNat = b
  generalize (Between 0 255 ⌊c.w * 255⌋).toNat = a
  rw [Nat.lor_comm _ (a <<< 24), ← Nat.lor_assoc, ← Nat.lor_assoc]


/-- C5: with an initialized frame buffer and a vertex shader set, if any of
the three vertices' homogeneous positions `(x,y,z,w)` returned by the vertex
program satisfies `w = 0`, `z < 0`, `z > w`, `x < -w`, `x > w`, `y < -w` or
`y > w`, the entire triangle is dropped: `DrawPrimitive` returns `false` and
the state is completely unchanged — no partial clipping. -/
theorem trivial_reject_drops_whole_triangle (st : RenderState) (fb : Bitmap)
    (vs : VertexShader) (hfb : st.frame_buffer = some fb)
    (hvs : st.vertex_shader = some vs)
    (h : ∃ k, k < 3 ∧ ((vs k).1.w = 0 ∨ (vs k).1.z < 0 ∨ (vs k).1.z > (vs k).1.w ∨
      (vs k).1.x < -(vs k).1.w ∨ (vs k).1.x > (vs k).1.w ∨
      (vs k).1.y < -(vs k).1.w ∨ (vs k).1.y > (vs k).1.w)) :
    DrawPrimitive st = (false, st) := by
  obtain ⟨k, hk, hc⟩ := h
  apply drawPrimitive_false_of_vertex_none st fb vs hfb hvs
  interval_cases k
  · exact Or.inl (processVertex_none_of_reject vs _ _ 0 hc)
  · exact Or.inr (Or.inl (processVertex_none_of_reject vs _ _ 1 hc))
  · exact Or.inr (Or.inr (processVertex_none_of_reject vs _ _ 2 hc))

theorem trivial_reject_drops_whole_triangle_witness :
    DrawPrimitive stOut = (false, stOut) :=
  trivial_reject_drops_whole_triangle stOut testBitmap vsOut rfl rfl
    ⟨0, by norm_num, Or.inr (Or.inl (by norm_num [vsOut]))⟩

/-- C9 (amended): calling `DrawPrimitive` without a vertex shader or on an
uninitialized rasterizer (no frame buffer) is a no-op: it returns `false` and
leaves the whole render state unchanged. (An absent pixel shader, by
contrast, does not abort the draw — see the counterexample.) -/
theorem drawPrimitive_noop_without_vs_or_fb (st : RenderState)
    (h : st.frame_buffer = none ∨ st.vertex_shader = none) :
    DrawPrimitive st = (false, st) := by
  unfold DrawPrimitive
  rcases h with h | h
  · rw [h]
  · rw [h]
    cases st.frame_buffer <;> rfl

theorem drawPrimitive_noop_witness :
    DrawPrimitive stUninit = (false, stUninit) :=
  drawPrimitive_noop_without_vs_or_fb stUninit (Or.inl rfl)

/-- C9 counterexample: with an initialized frame buffer and a vertex shader
but NO pixel shader, `DrawPrimitive` is not a no-op and does not return
`false`: it rasterizes with the default color `(0,0,0,0)`, returns `true`,
and overwrites frame-buffer pixels (here pixel `(0,0)` changes from the
background `0xff191970` to `0x00000000`). -/
theorem drawPrimitive_without_ps_draws :
    (DrawPrimitive stNoPS).1 = true ∧
      ((DrawPrimitive stNoPS).2.frame_buffer.map fun b => b.GetPixel 0 0) = some 0 ∧
      (stNoPS.frame_buffer.map fun b => b.GetPixel 0 0) = some 0xff191970 := by
  have hfb : stNoPS.frame_buffer = some testBitmap := rfl
  have hvs : stNoPS.vertex_shader = some vsTri := rfl
  refine ⟨?_, ?_, by norm_num [stNoPS, testState, testBitmap, Bitmap.GetPixel]⟩ <;>
  · unfold DrawPrimitive
    simp only [hfb, hvs, show stNoPS.fb_width = (2 : ℤ) from rfl,
      show stNoPS.fb_height = (2 : ℤ) from rfl,
      processVertex_vsTri_0, processVertex_vsTri_1, processVertex_vsTri_2]
    norm_num [stNoPS, testState, boundingBox, Between, vtx0, vtx1, vtx2, crossV4,
      fillStage, crossI, AbsZ, pixelList, intRange, intRangeAux, shadePixel,
      coveredPixel, IsTopLeft, edgeEquation, Abs, crossQ, interpContext,
      lookupVar, emptyContext, Bitmap.SetPixel, Bitmap.GetPixel, testBitmap,
      vector_to_color_zero]

/-- C3 (amended): silent rejects return `false`; the frame buffer is
unchanged for out-of-frustum rejects unconditionally, and for degenerate
rejects (zero NDC normal z-component, or zero integer screen area) whenever
the wireframe overlay is disabled — with wireframe enabled, the overlay of
the rejected triangle has already been drawn when the degeneracy is
detected. -/
theorem silent_reject_frame_effect (st : RenderState) (fb : Bitmap)
    (vs : VertexShader) (hfb : st.frame_buffer = some fb)
    (hvs : st.vertex_shader = some vs) :
    ((processVertex vs st.fb_width st.fb_height 0 = none ∨
      processVertex vs st.fb_width st.fb_height 1 = none ∨
      processVertex vs st.fb_width st.fb_height 2 = none) →
        DrawPrimitive st = (false, st)) ∧
    (∀ v0 v1 v2 : Vertex, st.render_frame = false →
      processVertex vs st.fb_width st.fb_height 0 = some v0 →
      processVertex vs st.fb_width st.fb_height 1 = some v1 →
      processVertex vs st.fb_width st.fb_height 2 = some v2 →
      ((crossV4 (v1.pos - v0.pos) (v2.pos - v0.pos)).z = 0 ∨
        AbsZ (crossI (v1.spi - v0.spi) (v2.spi - v0.spi)) ≤ 0) →
      DrawPrimitive st = (false, st)) := by
  constructor
  · exact drawPrimitive_false_of_vertex_none st fb vs hfb hvs
  · intro v0 v1 v2 hrf h0 h1 h2 hdeg
    unfold DrawPrimitive
    simp only [hfb, hvs, h0, h1, h2, hrf, Bool.false_eq_true, if_false]
    by_cases hrp : st.render_pixel = false
    · rw [if_pos hrp, renderState_eta st fb vs hfb hvs hrf]
    · rw [if_neg hrp]
      rcases hdeg with hz | hs
      · rw [if_neg (by rw [hz]; exact lt_irrefl 0), if_pos hz,
          renderState_eta st fb vs hfb hvs hrf]
      · rcases lt_trichotomy ((crossV4 (v1.pos - v0.pos) (v2.pos - v0.pos)).z) 0 with
          hlt | heq | hgt
        · rw [if_neg (by linarith), if_neg (by linarith)]
          unfold fillStage
          rw [if_pos hs, renderState_eta_fb st fb hfb]
        · rw [if_neg (by rw [heq]; exact lt_irrefl 0), if_pos heq,
            renderState_eta st fb vs hfb hvs hrf]
        · rw [if_pos hgt]
          unfold fillStage
          rw [absZ_crossI_swap (v1.spi - v0.spi) (v2.spi - v0.spi)]
          rw [if_pos hs, renderState_eta_fb st fb hfb]

theorem silent_reject_frame_effect_witness :
    DrawPrimitive stDegenNoWire = (false, stDegenNoWire) :=
  (silent_reject_frame_effect stDegenNoWire testBitmap vsCenter rfl rfl).2
    vtxC vtxC vtxC rfl (processVertex_vsCenter 0) (processVertex_vsCenter 1)
    (processVertex_vsCenter 2) (Or.inl (by norm_num [vtxC, crossV4]))

/-- C3 counterexample: a degenerate triangle (all three vertices at the same
screen point, `normal.z = 0`) drawn with the wireframe overlay enabled:
`DrawPrimitive` silently rejects (returns `false`) but the frame buffer HAS
been modified — pixel `(1,1)` now carries the foreground color `0xffffffff`
instead of the background `0xff191970`, because the wireframe pass runs
before the degeneracy check. -/
theorem degenerate_reject_draws_wireframe :
    (DrawPrimitive stDegenWire).1 = false ∧
      ((DrawPrimitive stDegenWire).2.frame_buffer.map fun b => b.GetPixel 1 1) =
        some 0xffffffff ∧
      (stDegenWire.frame_buffer.map fun b => b.GetPixel 1 1) = some 0xff191970 := by
  have hfb : stDegenWire.frame_buffer = some testBitmap := rfl
  have hvs : stDegenWire.vertex_shader = some vsCenter := rfl
  refine ⟨?_, ?_, by norm_num [stDegenWire, testState, testBitmap, Bitmap.GetPixel]⟩ <;>
  · unfold DrawPrimitive
    simp only [hfb, hvs, show stDegenWire.fb_width = (2 : ℤ) from rfl,
      show stDegenWire.fb_height = (2 : ℤ) from rfl, processVertex_vsCenter]
    norm_num [stDegenWire, testState, boundingBox, Between, vtxC, crossV4,
      Bitmap.DrawLine, linePts, paintPts, Bitmap.SetPixel, Bitmap.GetPixel,
      testBitmap]

/-- C8: for every vertex accepted by the trivial reject (on a target with
nonnegative dimensions), the floating-point screen position satisfies
`spf.x = (pos.x + 1)·W/2` and `spf.y = (1 - pos.y)·H/2` in terms of the
post-divide NDC position, so NDC `(-1,1)` maps to `(0,0)`, `(1,-1)` to
`(W,H)` and `(0,0)` to the image center; and the integer screen position is
`floor(spf + 1/2)` componentwise (the code's int cast truncates, which
coincides with floor because `spf ≥ 0` for accepted vertices). -/
theorem viewport_mapping (vs : VertexShader) (W H : ℤ) (k : ℕ) (v : Vertex)
    (hW : 0 ≤ W) (hH : 0 ≤ H) (h : processVertex vs W H k = some v) :
    v.spf.x = (v.pos.x + 1) * (W : ℚ) / 2 ∧
    v.spf.y = (1 - v.pos.y) * (H : ℚ) / 2 ∧
    0 ≤ v.spf.x ∧ 0 ≤ v.spf.y ∧
    v.spi.x = ⌊v.spf.x + 1 / 2⌋ ∧ v.spi.y = ⌊v.spf.y + 1 / 2⌋ ∧
    (v.pos.x = -1 → v.spf.x = 0) ∧ (v.pos.y = 1 → v.spf.y = 0) ∧
    (v.pos.x = 1 → v.spf.x = W) ∧ (v.pos.y = -1 → v.spf.y = H) ∧
    (v.pos.x = 0 → v.spf.x = (W : ℚ) / 2) ∧
    (v.pos.y = 0 → v.spf.y = (H : ℚ) / 2) := by
  obtain ⟨hw, hxl, hxu, hyl, hyu, hzl, hzu, hv⟩ := processVertex_inv vs W H k v h
  subst hv
  dsimp only
  have hinv : (vs k).1.w * (1 / (vs k).1.w) = 1 :=
    mul_one_div_cancel (ne_of_gt hw)
  have hinvpos : 0 ≤ 1 / (vs k).1.w := le_of_lt (one_div_pos.mpr hw)
  have hxndc : -1 ≤ (vs k).1.x * (1 / (vs k).1.w) := by
    have := mul_le_mul_of_nonneg_right hxl hinvpos
    nlinarith
  have hyndc : (vs k).1.y * (1 / (vs k).1.w) ≤ 1 := by
    have := mul_le_mul_of_nonneg_right hyu hinvpos
    nlinarith
  have hWq : (0 : ℚ) ≤ (W : ℚ) := by exact_mod_cast hW
  have hHq : (0 : ℚ) ≤ (H : ℚ) := by exact_mod_cast hH
  have hsfx : 0 ≤ ((vs k).1.x * (1 / (vs k).1.w) + 1) * (W : ℚ) * (1 / 2) := by
    apply mul_nonneg (mul_nonneg (by linarith) hWq)
    norm_num
  have hsfy : 0 ≤ (1 - (vs k).1.y * (1 / (vs k).1.w)) * (H : ℚ) * (1 / 2) := by
    apply mul_nonneg (mul_nonneg (by linarith) hHq)
    norm_num
  refine ⟨by ring, by ring, hsfx, hsfy, ?_, ?_, ?_, ?_, ?_, ?_, ?_, ?_⟩
  · exact truncInt_eq_floor_of_nonneg _ (by linarith)
  · exact truncInt_eq_floor_of_nonneg _ (by linarith)
  · intro hx; rw [hx]; ring
  · intro hy; rw [hy]; ring
  · intro hx; rw [hx]; ring
  · intro hy; rw [hy]; ring
  · intro hx; rw [hx]; ring
  · intro hy; rw [hy]; ring

theorem viewport_mapping_witness :
    (0 : ℤ) ≤ 2 ∧ processVertex vsTri 2 2 0 = some vtx0 ∧
      (vtx0.spf.x = (vtx0.pos.x + 1) * ((2 : ℤ) : ℚ) / 2 ∧
        vtx0.spf.y = (1 - vtx0.pos.y) * ((2 : ℤ) : ℚ) / 2 ∧
        0 ≤ vtx0.spf.x ∧ 0 ≤ vtx0.spf.y ∧
        vtx0.spi.x = ⌊vtx0.spf.x + 1 / 2⌋ ∧ vtx0.spi.y = ⌊vtx0.spf.y + 1 / 2⌋ ∧
        (vtx0.pos.x = -1 → vtx0.spf.x = 0) ∧ (vtx0.pos.y = 1 → vtx0.spf.y = 0) ∧
        (vtx0.pos.x = 1 → vtx0.spf.x = ((2 : ℤ) : ℚ)) ∧
        (vtx0.pos.y = -1 → vtx0.spf.y = ((2 : ℤ) : ℚ)) ∧
        (vtx0.pos.x = 0 → vtx0.spf.x = ((2 : ℤ) : ℚ) / 2) ∧
        (vtx0.pos.y = 0 → vtx0.spf.y = ((2 : ℤ) : ℚ) / 2)) :=
  ⟨by norm_num, processVertex_vsTri_0,
    viewport_mapping vsTri 2 2 0 vtx0 (by norm_num) (by norm_num) processVertex_vsTri_0⟩

theorem Abs_nonneg_q (q : ℚ) : 0 ≤ Abs q := by
  unfold Abs; split_ifs <;> linarith

/-- Positivity of the interpolated `rhw` from nonnegative barycentric areas
with a nonzero sum and positive vertex `rhw`s. -/
theorem interpRhw_pos (r0 r1 r2 a b c : ℚ) (h0 : 0 < r0) (h1 : 0 < r1)
    (h2 : 0 < r2) (hA : 0 ≤ a) (hB : 0 ≤ b) (hC : 0 ≤ c) (hs : ¬(a + b + c = 0)) :
    0 < r0 * (a * (1 / (a + b + c))) + r1 * (b * (1 / (a + b + c))) +
      r2 * (c * (1 / (a + b + c))) := by
  have hsum : 0 < a + b + c := lt_of_le_of_ne (by linarith) (Ne.symm hs)
  have hnum : 0 < r0 * a + r1 * b + r2 * c := by
    rcases (show 0 < a ∨ 0 < b ∨ 0 < c by
      by_contra hcon
      push_neg at hcon
      have ha0 : a = 0 := le_antisymm hcon.1 hA
      have hb0 : b = 0 := le_antisymm hcon.2.1 hB
      have hc0 : c = 0 := le_antisymm hcon.2.2 hC
      rw [ha0, hb0, hc0] at hsum
      norm_num at hsum) with hp | hp | hp
    · nlinarith
    · nlinarith
    · nlinarith
  have heq : r0 * (a * (1 / (a + b + c))) + r1 * (b * (1 / (a + b + c))) +
      r2 * (c * (1 / (a + b + c))) =
      (r0 * a + r1 * b + r2 * c) * (1 / (a + b + c)) := by ring
  rw [heq]
  exact mul_pos hnum (one_div_pos.mpr hsum)

/-- C10: every vertex accepted by the trivial reject has `w > 0` (so
`rhw = 1/w > 0`); every depth value the inner loop writes is either left
unchanged or strictly positive whenever the three vertices carry positive
`rhw`; and `Clear` resets every depth entry to 0 — hence depth-buffer entries
are always nonnegative. -/
theorem accepted_rhw_positive (vs : VertexShader) (W H : ℤ) (k : ℕ) (v : Vertex)
    (h : processVertex vs W H k = some v) :
    0 < (vs k).1.w ∧ v.rhw = 1 / (vs k).1.w ∧ 0 < v.rhw ∧
      (∀ (ps : Option PixelShader) (t0 t1 t2 : Vertex)
        (acc : Bitmap × (ℤ → ℤ → ℚ)) (cx cy j i : ℤ),
        0 < t0.rhw → 0 < t1.rhw → 0 < t2.rhw →
        ((shadePixel ps t0 t1 t2 acc cx cy).2 j i = acc.2 j i ∨
          0 < (shadePixel ps t0 t1 t2 acc cx cy).2 j i)) ∧
      (∀ (st : RenderState) (j i : ℤ), (Clear st).depth_buffer j i = 0) := by
  obtain ⟨hw, _, _, _, _, _, _, hv⟩ := processVertex_inv vs W H k v h
  have hrhw : v.rhw = 1 / (vs k).1.w := by rw [hv]
  refine ⟨hw, hrhw, by rw [hrhw]; exact one_div_pos.mpr hw, ?_, fun st j i => rfl⟩
  intro ps t0 t1 t2 acc cx cy j i h0 h1 h2
  unfold shadePixel
  dsimp only
  split_ifs with hcov hs hlt hne
  all_goals try exact Or.inl rfl
  all_goals
    by_cases hji : j = cy ∧ i = cx
    · exact Or.inr (by
        dsimp only
        rw [if_pos hji]
        exact interpRhw_pos _ _ _ _ _ _ h0 h1 h2 (Abs_nonneg_q _) (Abs_nonneg_q _)
          (Abs_nonneg_q _) hs)
    · exact Or.inl (by dsimp only; rw [if_neg hji])

theorem accepted_rhw_positive_witness :
    0 < (vsTri 0).1.w ∧ vtx0.rhw = 1 / (vsTri 0).1.w ∧ 0 < vtx0.rhw ∧
      (∀ (ps : Option PixelShader) (t0 t1 t2 : Vertex)
        (acc : Bitmap × (ℤ → ℤ → ℚ)) (cx cy j i : ℤ),
        0 < t0.rhw → 0 < t1.rhw → 0 < t2.rhw →
        ((shadePixel ps t0 t1 t2 acc cx cy).2 j i = acc.2 j i ∨
          0 < (shadePixel ps t0 t1 t2 acc cx cy).2 j i)) ∧
      (∀ (st : RenderState) (j i : ℤ), (Clear st).depth_buffer j i = 0) :=
  accepted_rhw_positive vsTri 2 2 0 vtx0 processVertex_vsTri_0

/-- The edge equation is the 2D cross product of the edge vector with the
vector from the edge start to the pixel. -/
theorem edgeEquation_eq_crossI (a b : Vec2i) (cx cy : ℤ) :
    edgeEquation a b cx cy = crossI (b - a) (⟨cx, cy⟩ - a) := by
  unfold edgeEquation crossI
  dsimp only [vec2i_sub_x, vec2i_sub_y]
  ring

/-- A point on the line through `a` and `b` sees every affine edge function as
the corresponding affine combination of its values at `a` and at `b`, scaled
by the squared length `D` of `ab`; the combination weight is the dot product
`u` of `ap` with `ab`. -/
theorem edge_affine_on_line (a b q r p : Vec2i)
    (hcol : crossI (b - a) (p - a) = 0) :
    ((b.x - a.x) * (b.x - a.x) + (b.y - a.y) * (b.y - a.y)) *
        edgeEquation q r p.x p.y =
      (((b.x - a.x) * (b.x - a.x) + (b.y - a.y) * (b.y - a.y)) -
          ((p.x - a.x) * (b.x - a.x) + (p.y - a.y) * (b.y - a.y))) *
        edgeEquation q r a.x a.y +
      ((p.x - a.x) * (b.x - a.x) + (p.y - a.y) * (b.y - a.y)) *
        edgeEquation q r b.x b.y := by
  unfold crossI at hcol
  dsimp only [vec2i_sub_x, vec2i_sub_y] at hcol
  unfold edgeEquation
  linear_combination ((r.y - q.y) * (b.y - a.y) + (r.x - q.x) * (b.x - a.x)) * hcol

/-- For two distinct integer points exactly one of the two directed edges
between them is top-left. -/
theorem isTopLeft_antisymm (a b : Vec2i) (hne : a.x ≠ b.x ∨ a.y ≠ b.y) :
    (IsTopLeft a b ∧ ¬IsTopLeft b a) ∨ (¬IsTopLeft a b ∧ IsTopLeft b a) := by
  unfold IsTopLeft
  omega

theorem pos_of_mul_pos_left_int (D E : ℤ) (hD : 0 < D) (h : 0 < D * E) :
    0 < E := by
  by_contra hE
  push_neg at hE
  nlinarith

/-- C6 (amended): for two triangles accepted with counter-clockwise
screen-space winding that share the edge `a ↔ b` with identical integer
endpoints traversed in opposite directions, every pixel lying strictly inside
the shared edge (on the line through `a` and `b`, strictly between them) is
covered by exactly one of the two triangles' coverage tests — no pixel is
written by both and no strictly interior pixel is missed. (At the shared
endpoints a pixel can be covered by neither, see the counterexample.) -/
theorem shared_edge_exactly_one (a b c1 c2 p : Vec2i)
    (hacc1 : 0 < crossI (b - a) (c1 - a))
    (hacc2 : 0 < crossI (a - b) (c2 - b))
    (hcol : crossI (b - a) (p - a) = 0)
    (hu : 0 < (p.x - a.x) * (b.x - a.x) + (p.y - a.y) * (b.y - a.y))
    (huD : (p.x - a.x) * (b.x - a.x) + (p.y - a.y) * (b.y - a.y) <
      (b.x - a.x) * (b.x - a.x) + (b.y - a.y) * (b.y - a.y)) :
    (coveredPixel a b c1 p.x p.y ∧ ¬coveredPixel b a c2 p.x p.y) ∨
      (coveredPixel b a c2 p.x p.y ∧ ¬coveredPixel a b c1 p.x p.y) := by
  have hD : 0 < (b.x - a.x) * (b.x - a.x) + (b.y - a.y) * (b.y - a.y) := by linarith
  -- the pixel lies on both directed shared edges
  have hEab : edgeEquation a b p.x p.y = 0 := by
    unfold crossI at hcol
    dsimp only [vec2i_sub_x, vec2i_sub_y] at hcol
    unfold edgeEquation
    linear_combination hcol
  have hEba : edgeEquation b a p.x p.y = 0 := by
    unfold crossI at hcol
    dsimp only [vec2i_sub_x, vec2i_sub_y] at hcol
    unfold edgeEquation
    linear_combination -hcol
  -- the four non-shared edges are strictly positive at p
  have key : ∀ q r : Vec2i,
      ((b.x - a.x) * (b.x - a.x) + (b.y - a.y) * (b.y - a.y)) *
        edgeEquation q r p.x p.y =
      (((b.x - a.x) * (b.x - a.x) + (b.y - a.y) * (b.y - a.y)) -
          ((p.x - a.x) * (b.x - a.x) + (p.y - a.y) * (b.y - a.y))) *
        edgeEquation q r a.x a.y +
      ((p.x - a.x) * (b.x - a.x) + (p.y - a.y) * (b.y - a.y)) *
        edgeEquation q r b.x b.y := fun q r => edge_affine_on_line a b q r p hcol
  have hbc1a : edgeEquation b c1 a.x a.y = crossI (b - a) (c1 - a) := by
    unfold edgeEquation crossI
    dsimp only [vec2i_sub_x, vec2i_sub_y]
    ring
  have hbc1b : edgeEquation b c1 b.x b.y = 0 := by
    unfold edgeEquation; ring
  have hc1aa : edgeEquation c1 a a.x a.y = 0 := by
    unfold edgeEquation; ring
  have hc1ab : edgeEquation c1 a b.x b.y = crossI (b - a) (c1 - a) := by
    unfold edgeEquation crossI
    dsimp only [vec2i_sub_x, vec2i_sub_y]
    ring
  have hac2a : edgeEquation a c2 a.x a.y = 0 := by
    unfold edgeEquation; ring
  have hac2b : edgeEquation a c2 b.x b.y = crossI (a - b) (c2 - b) := by
    unfold edgeEquation crossI
    dsimp only [vec2i_sub_x, vec2i_sub_y]
    ring
  have hc2ba : edgeEquation c2 b a.x a.y = crossI (a - b) (c2 - b) := by
    unfold edgeEquation crossI
    dsimp only [vec2i_sub_x, vec2i_sub_y]
    ring
  have hc2bb : edgeEquation c2 b b.x b.y = 0 := by
    unfold edgeEquation; ring
  have hbc1 : 1 ≤ edgeEquation b c1 p.x p.y := by
    have hk := key b c1
    rw [hbc1a, hbc1b, mul_zero, add_zero] at hk
    have : 0 < edgeEquation b c1 p.x p.y :=
      pos_of_mul_pos_left_int _ _ hD
        (by rw [hk]; exact mul_pos (by linarith) hacc1)
    omega
  have hc1a : 1 ≤ edgeEquation c1 a p.x p.y := by
    have hk := key c1 a
    rw [hc1aa, hc1ab, mul_zero, zero_add] at hk
    have : 0 < edgeEquation c1 a p.x p.y :=
      pos_of_mul_pos_left_int _ _ hD (by rw [hk]; exact mul_pos hu hacc1)
    omega
  have hac2 : 1 ≤ edgeEquation a c2 p.x p.y := by
    have hk := key a c2
    rw [hac2a, hac2b, mul_zero, zero_add] at hk
    have : 0 < edgeEquation a c2 p.x p.y :=
      pos_of_mul_pos_left_int _ _ hD (by rw [hk]; exact mul_pos hu hacc2)
    omega
  have hc2b : 1 ≤ edgeEquation c2 b p.x p.y := by
    have hk := key c2 b
    rw [hc2ba, hc2bb, mul_zero, add_zero] at hk
    have : 0 < edgeEquation c2 b p.x p.y :=
      pos_of_mul_pos_left_int _ _ hD
        (by rw [hk]; exact mul_pos (by linarith) hacc2)
    omega
  -- each triangle covers p iff its shared-edge direction is top-left
  have hcov1 : coveredPixel a b c1 p.x p.y ↔ IsTopLeft a b := by
    unfold coveredPixel
    rw [hEab]
    constructor
    · rintro ⟨h1, _, _⟩
      by_contra hTL
      rw [if_neg hTL] at h1
      exact h1 (by norm_num)
    · intro hTL
      refine ⟨by rw [if_pos hTL]; norm_num, ?_, ?_⟩
      · split_ifs <;> omega
      · split_ifs <;> omega
  have hcov2 : coveredPixel b a c2 p.x p.y ↔ IsTopLeft b a := by
    unfold coveredPixel
    rw [hEba]
    constructor
    · rintro ⟨h1, _, _⟩
      by_contra hTL
      rw [if_neg hTL] at h1
      exact h1 (by norm_num)
    · intro hTL
      refine ⟨by rw [if_pos hTL]; norm_num, ?_, ?_⟩
      · split_ifs <;> omega
      · split_ifs <;> omega
  have hne : a.x ≠ b.x ∨ a.y ≠ b.y := by
    by_contra hcon
    push_neg at hcon
    unfold crossI at hacc1
    dsimp only [vec2i_sub_x, vec2i_sub_y] at hacc1
    rw [hcon.1, hcon.2] at hacc1
    simp at hacc1
  rcases isTopLeft_antisymm a b hne with ⟨hab, hba⟩ | ⟨hab, hba⟩
  · exact Or.inl ⟨hcov1.mpr hab, fun hc => hba (hcov2.mp hc)⟩
  · exact Or.inr ⟨hcov2.mpr hba, fun hc => hab (hcov1.mp hc)⟩

theorem shared_edge_exactly_one_witness :
    (0 < crossI (⟨2, 0⟩ - ⟨0, 2⟩) (⟨3, 0⟩ - ⟨0, 2⟩) ∧
      0 < crossI (⟨0, 2⟩ - ⟨2, 0⟩) (⟨0, 0⟩ - ⟨2, 0⟩) ∧
      crossI (⟨2, 0⟩ - ⟨0, 2⟩) (⟨1, 1⟩ - ⟨0, 2⟩) = 0) ∧
    ((coveredPixel ⟨0, 2⟩ ⟨2, 0⟩ ⟨3, 0⟩ 1 1 ∧ ¬coveredPixel ⟨2, 0⟩ ⟨0, 2⟩ ⟨0, 0⟩ 1 1) ∨
      (coveredPixel ⟨2, 0⟩ ⟨0, 2⟩ ⟨0, 0⟩ 1 1 ∧ ¬coveredPixel ⟨0, 2⟩ ⟨2, 0⟩ ⟨3, 0⟩ 1 1)) :=
  ⟨⟨by decide, by decide, by decide⟩,
    shared_edge_exactly_one ⟨0, 2⟩ ⟨2, 0⟩ ⟨3, 0⟩ ⟨0, 0⟩ ⟨1, 1⟩
      (by decide) (by decide) (by decide) (by decide) (by decide)⟩

/-- C6 counterexample: the two back-to-back accepted triangles
`T1 = ((0,2),(2,0),(3,0))` and `T2 = ((2,0),(0,2),(0,0))` share the edge
between `(0,2)` and `(2,0)` (traversed in opposite directions); the pixel
`(0,2)` lies on that shared edge (it is an endpoint, the edge function
vanishes there), yet it is covered by NEITHER triangle — a pixel on the
shared edge is missed, contradicting the claim for edge-endpoint pixels. -/
theorem shared_edge_endpoint_missed :
    0 < crossI (⟨2, 0⟩ - ⟨0, 2⟩) (⟨3, 0⟩ - ⟨0, 2⟩) ∧
      0 < crossI (⟨0, 2⟩ - ⟨2, 0⟩) (⟨0, 0⟩ - ⟨2, 0⟩) ∧
      edgeEquation ⟨0, 2⟩ ⟨2, 0⟩ 0 2 = 0 ∧
      ¬coveredPixel ⟨0, 2⟩ ⟨2, 0⟩ ⟨3, 0⟩ 0 2 ∧
      ¬coveredPixel ⟨2, 0⟩ ⟨0, 2⟩ ⟨0, 0⟩ 0 2 := by
  refine ⟨by decide, by decide, by decide, by decide, by decide⟩

/-- Bitmap extensionality. -/
theorem Bitmap.ext_pix (b1 b2 : Bitmap) (hw : b1.w = b2.w) (hh : b1.h = b2.h)
    (hp : ∀ i j, b1.pix i j = b2.pix i j) : b1 = b2 := by
  cases b1
  cases b2
  simp_all only [Bitmap.mk.injEq, and_true, true_and]
  exact funext fun i => funext fun j => hp i j

theorem Bitmap.SetPixel_w (bmp : Bitmap) (x y : ℤ) (c : ℕ) :
    (bmp.SetPixel x y c).w = bmp.w := by
  unfold Bitmap.SetPixel
  split_ifs <;> rfl

theorem Bitmap.SetPixel_h (bmp : Bitmap) (x y : ℤ) (c : ℕ) :
    (bmp.SetPixel x y c).h = bmp.h := by
  unfold Bitmap.SetPixel
  split_ifs <;> rfl

theorem Bitmap.SetPixel_pix (bmp : Bitmap) (x y : ℤ) (c : ℕ) (i j : ℤ) :
    (bmp.SetPixel x y c).pix i j =
      if (i = x ∧ j = y) ∧ 0 ≤ i ∧ i < bmp.w ∧ 0 ≤ j ∧ j < bmp.h then c
      else bmp.pix i j := by
  unfold Bitmap.SetPixel
  by_cases h1 : 0 ≤ x ∧ x < bmp.w ∧ 0 ≤ y ∧ y < bmp.h
  · rw [if_pos h1]
    dsimp only
    by_cases h2 : i = x ∧ j = y
    · rw [if_pos h2,
        if_pos ⟨h2, by obtain ⟨hx, hy⟩ := h2; subst hx; subst hy; exact h1⟩]
    · rw [if_neg h2, if_neg (by tauto)]
  · rw [if_neg h1,
      if_neg (by rintro ⟨⟨hx, hy⟩, hb⟩; subst hx; subst hy; exact h1 hb)]

theorem paintPts_w (pts : List (ℤ × ℤ)) : ∀ (bmp : Bitmap) (c : ℕ),
    (paintPts bmp pts c).w = bmp.w := by
  induction pts with
  | nil => intro bmp c; rfl
  | cons p pts ih =>
    intro bmp c
    show (paintPts (bmp.SetPixel p.1 p.2 c) pts c).w = bmp.w
    rw [ih, Bitmap.SetPixel_w]

theorem paintPts_h (pts : List (ℤ × ℤ)) : ∀ (bmp : Bitmap) (c : ℕ),
    (paintPts bmp pts c).h = bmp.h := by
  induction pts with
  | nil => intro bmp c; rfl
  | cons p pts ih =>
    intro bmp c
    show (paintPts (bmp.SetPixel p.1 p.2 c) pts c).h = bmp.h
    rw [ih, Bitmap.SetPixel_h]

/-- The pixels of a painted bitmap: the color on the painted in-bounds points,
the underlying bitmap elsewhere. -/
theorem paintPts_pix (pts : List (ℤ × ℤ)) : ∀ (bmp : Bitmap) (c : ℕ) (i j : ℤ),
    (paintPts bmp pts c).pix i j =
      if (i, j) ∈ pts ∧ 0 ≤ i ∧ i < bmp.w ∧ 0 ≤ j ∧ j < bmp.h then c
      else bmp.pix i j := by
  induction pts with
  | nil =>
    intro bmp c i j
    simp [paintPts]
  | cons p pts ih =>
    intro bmp c i j
    show (paintPts (bmp.SetPixel p.1 p.2 c) pts c).pix i j = _
    rw [ih, Bitmap.SetPixel_w, Bitmap.SetPixel_h, Bitmap.SetPixel_pix]
    by_cases h1 : (i, j) ∈ pts <;>
      by_cases h2 : i = p.1 ∧ j = p.2 <;>
      by_cases h3 : 0 ≤ i ∧ i < bmp.w ∧ 0 ≤ j ∧ j < bmp.h <;>
      simp_all [List.mem_cons, Prod.ext_iff]

theorem intRangeAux_mem (n : ℕ) : ∀ (a y : ℤ),
    y ∈ intRangeAux a n ↔ a ≤ y ∧ y < a + n := by
  induction n with
  | zero =>
    intro a y
    simp [intRangeAux]
  | succ n ih =>
    intro a y
    simp only [intRangeAux, List.mem_cons, ih]
    constructor
    · rintro (h | h) <;> omega
    · intro h
      by_cases hy : y = a
      · exact Or.inl hy
      · exact Or.inr (by omega)

theorem intRange_mem (a b y : ℤ) : y ∈ intRange a b ↔ a ≤ y ∧ y ≤ b := by
  unfold intRange
  rw [intRangeAux_mem]
  omega

theorem stepValues_mem (v1 v2 y : ℤ) :
    y ∈ stepValues v1 v2 ↔ min v1 v2 ≤ y ∧ y ≤ max v1 v2 ∧ y ≠ v2 := by
  unfold stepValues
  split_ifs with h
  · rw [intRange_mem]; omega
  · rw [List.mem_reverse, intRange_mem]; omega

/-- Membership in a vertical point column. -/
theorem mem_map_pair_vert (x : ℤ) (l : List ℤ) (qx qy : ℤ) :
    (qx, qy) ∈ l.map (fun y => (x, y)) ↔ qx = x ∧ qy ∈ l := by
  simp only [List.mem_map, Prod.mk.injEq]
  constructor
  · rintro ⟨y, hy, hx, hq⟩
    exact ⟨hx.symm, hq ▸ hy⟩
  · rintro ⟨hx, hy⟩
    exact ⟨qy, hy, hx.symm, rfl⟩

/-- Membership in a horizontal point row. -/
theorem mem_map_pair_horiz (y : ℤ) (l : List ℤ) (qx qy : ℤ) :
    (qx, qy) ∈ l.map (fun x => (x, y)) ↔ qy = y ∧ qx ∈ l := by
  simp only [List.mem_map, Prod.mk.injEq]
  constructor
  · rintro ⟨x, hx, hq, hy⟩
    exact ⟨hy.symm, hq ▸ hx⟩
  · rintro ⟨hy, hx⟩
    exact ⟨qx, hx, rfl, hy.symm⟩

/-- `DrawLine` paints the same set of pixels in both endpoint orders: the
single-point and axis-aligned sweeps cover the same closed range, and the
Bresenham case normalizes the endpoint order before walking. -/
theorem linePts_symm (x1 y1 x2 y2 : ℤ) (q : ℤ × ℤ) :
    q ∈ linePts x1 y1 x2 y2 ↔ q ∈ linePts x2 y2 x1 y1 := by
  obtain ⟨qx, qy⟩ := q
  unfold linePts
  by_cases hx : x1 = x2
  · by_cases hy : y1 = y2
    · subst hx
      subst hy
      simp
    · rw [if_neg (show ¬(x1 = x2 ∧ y1 = y2) from fun h => hy h.2),
        if_neg (show ¬(x2 = x1 ∧ y2 = y1) from fun h => hy h.2.symm),
        if_pos hx, if_pos hx.symm]
      subst hx
      simp only [List.mem_append, List.mem_singleton, mem_map_pair_vert,
        stepValues_mem, Prod.mk.injEq]
      omega
  · by_cases hy : y1 = y2
    · rw [if_neg (show ¬(x1 = x2 ∧ y1 = y2) from fun h => hx h.1),
        if_neg (show ¬(x2 = x1 ∧ y2 = y1) from fun h => hx h.1.symm),
        if_neg hx, if_neg (show ¬x2 = x1 from fun h => hx h.symm),
        if_pos hy, if_pos hy.symm]
      subst hy
      simp only [List.mem_append, List.mem_singleton, mem_map_pair_horiz,
        stepValues_mem, Prod.mk.injEq]
      omega
    · rw [if_neg (show ¬(x1 = x2 ∧ y1 = y2) from fun h => hx h.1),
        if_neg (show ¬(x2 = x1 ∧ y2 = y1) from fun h => hx h.1.symm),
        if_neg hx, if_neg (show ¬x2 = x1 from fun h => hx h.symm),
        if_neg hy, if_neg (show ¬y2 = y1 from fun h => hy h.symm)]
      dsimp only
      have hdx : (if x2 < x1 then x1 - x2 else x2 - x1) =
          (if x1 < x2 then x2 - x1 else x1 - x2) := by
        rcases lt_or_gt_of_ne hx with h | h
        · rw [if_neg (show ¬x2 < x1 by omega), if_pos h]
        · rw [if_pos (show x2 < x1 from h), if_neg (show ¬x1 < x2 by omega)]
      have hdy : (if y2 < y1 then y1 - y2 else y2 - y1) =
          (if y1 < y2 then y2 - y1 else y1 - y2) := by
        rcases lt_or_gt_of_ne hy with h | h
        · rw [if_neg (show ¬y2 < y1 by omega), if_pos h]
        · rw [if_pos (show y2 < y1 from h), if_neg (show ¬y1 < y2 by omega)]
      rw [hdx, hdy]
      by_cases hd : (if x1 < x2 then x2 - x1 else x1 - x2) ≥
          (if y1 < y2 then y2 - y1 else y1 - y2)
      · rw [if_pos hd, if_pos hd]
        split_ifs with h1 h2 h2 <;> first | rfl | (exfalso; omega)
      · rw [if_neg hd, if_neg hd]
        split_ifs with h1 h2 h2 <;> first | rfl | (exfalso; omega)

theorem Bitmap.DrawLine_w (bmp : Bitmap) (x1 y1 x2 y2 : ℤ) (c : ℕ) :
    (bmp.DrawLine x1 y1 x2 y2 c).w = bmp.w := paintPts_w _ _ _

theorem Bitmap.DrawLine_h (bmp : Bitmap) (x1 y1 x2 y2 : ℤ) (c : ℕ) :
    (bmp.DrawLine x1 y1 x2 y2 c).h = bmp.h := paintPts_h _ _ _

theorem Bitmap.DrawLine_pix (bmp : Bitmap) (x1 y1 x2 y2 : ℤ) (c : ℕ) (i j : ℤ) :
    (bmp.DrawLine x1 y1 x2 y2 c).pix i j =
      if (i, j) ∈ linePts x1 y1 x2 y2 ∧ 0 ≤ i ∧ i < bmp.w ∧ 0 ≤ j ∧ j < bmp.h
      then c else bmp.pix i j := paintPts_pix _ _ _ _ _

/-- Reversing a line's endpoints yields the same bitmap. -/
theorem drawLine_symm (bmp : Bitmap) (x1 y1 x2 y2 : ℤ) (c : ℕ) :
    bmp.DrawLine x1 y1 x2 y2 c = bmp.DrawLine x2 y2 x1 y1 c := by
  apply Bitmap.ext_pix
  · rw [Bitmap.DrawLine_w, Bitmap.DrawLine_w]
  · rw [Bitmap.DrawLine_h, Bitmap.DrawLine_h]
  · intro i j
    rw [Bitmap.DrawLine_pix, Bitmap.DrawLine_pix]
    exact if_congr (and_congr_left fun _ => linePts_symm x1 y1 x2 y2 (i, j)) rfl rfl

set_option maxHeartbeats 2000000 in
/-- The three wireframe lines drawn with vertices 1 and 2 in either role give
the same bitmap: same pixel set, same single color. -/
theorem wire_symm (fb : Bitmap) (s0 s1 s2 : Vec2i) (c : ℕ) :
    ((fb.DrawLine s0.x s0.y s2.x s2.y c).DrawLine s0.x s0.y s1.x s1.y c).DrawLine
        s1.x s1.y s2.x s2.y c =
      ((fb.DrawLine s0.x s0.y s1.x s1.y c).DrawLine s0.x s0.y s2.x s2.y c).DrawLine
        s2.x s2.y s1.x s1.y c := by
  apply Bitmap.ext_pix
  · simp only [Bitmap.DrawLine_w]
  · simp only [Bitmap.DrawLine_h]
  · intro i j
    simp only [Bitmap.DrawLine_pix, Bitmap.DrawLine_w, Bitmap.DrawLine_h]
    have hsym := linePts_symm s1.x s1.y s2.x s2.y (i, j)
    split_ifs <;> tauto

/-- The clamped bounding box does not depend on the order of vertices 1, 2. -/
theorem boundingBox_symm (W H : ℤ) (v0 v1 v2 : Vertex) :
    boundingBox W H v0 v2 v1 = boundingBox W H v0 v1 v2 := by
  unfold boundingBox Between
  dsimp only
  simp only [Prod.mk.injEq]
  refine ⟨?_, ?_, ?_, ?_⟩ <;> omega

/-- `vector_cross` z-component is antisymmetric. -/
theorem crossV4_z_swap (u v : Vec4) : (crossV4 u v).z = -(crossV4 v u).z := by
  unfold crossV4
  dsimp only
  ring

/-- The swapped shader's per-vertex results: vertex 0 unchanged, vertices 1
and 2 exchanged. -/
theorem processVertex_swapVS (vs : VertexShader) (W H : ℤ) :
    processVertex (swapVS vs) W H 0 = processVertex vs W H 0 ∧
      processVertex (swapVS vs) W H 1 = processVertex vs W H 2 ∧
      processVertex (swapVS vs) W H 2 = processVertex vs W H 1 :=
  ⟨rfl, rfl, rfl⟩

/-- The fill stage produces the same drawn flag, frame buffer and depth
buffer for two states agreeing on the depth buffer, pixel shader, wireframe
flag and foreground color, with the second wireframe pass endpoints 1 and 2
exchanged. -/
theorem fillStage_swap_congr (stS stO : RenderState) (fb : Bitmap)
    (bb : ℤ × ℤ × ℤ × ℤ) (t0 t1 t2 : Vertex) (q0 q1 q2 : Vec2i)
    (hd : stS.depth_buffer = stO.depth_buffer)
    (hp : stS.pixel_shader = stO.pixel_shader)
    (hr : stS.render_frame = stO.render_frame)
    (hc : stS.color_fg = stO.color_fg) :
    (fillStage stS fb bb t0 t1 t2 q0 q2 q1).1 =
        (fillStage stO fb bb t0 t1 t2 q0 q1 q2).1 ∧
      (fillStage stS fb bb t0 t1 t2 q0 q2 q1).2.frame_buffer =
        (fillStage stO fb bb t0 t1 t2 q0 q1 q2).2.frame_buffer ∧
      (fillStage stS fb bb t0 t1 t2 q0 q2 q1).2.depth_buffer =
        (fillStage stO fb bb t0 t1 t2 q0 q1 q2).2.depth_buffer := by
  unfold fillStage
  dsimp only
  rw [hd, hp, hr, hc]
  split_ifs with hs hw
  · exact ⟨rfl, rfl, rfl⟩
  · refine ⟨rfl, ?_, rfl⟩
    dsimp only
    rw [wire_symm]
  · exact ⟨rfl, rfl, rfl⟩

/-- C7: swapping the roles of vertex 1 and vertex 2 (reversed winding)
produces identical DrawPrimitive output: same return value, same frame
buffer, same depth buffer — a back-facing orientation is re-oriented by
swapping vertices 1 and 2 rather than culled. -/
theorem draw_swap12_same_output (st : RenderState) (vs : VertexShader) :
    (DrawPrimitive { st with vertex_shader := some (swapVS vs) }).1 =
        (DrawPrimitive { st with vertex_shader := some vs }).1 ∧
      (DrawPrimitive { st with vertex_shader := some (swapVS vs) }).2.frame_buffer =
        (DrawPrimitive { st with vertex_shader := some vs }).2.frame_buffer ∧
      (DrawPrimitive { st with vertex_shader := some (swapVS vs) }).2.depth_buffer =
        (DrawPrimitive { st with vertex_shader := some vs }).2.depth_buffer := by
  obtain ⟨hs0, hs1, hs2⟩ := processVertex_swapVS vs st.fb_width st.fb_height
  unfold DrawPrimitive
  dsimp only
  cases hfb : st.frame_buffer with
  | none => exact ⟨rfl, rfl, rfl⟩
  | some fb =>
    dsimp only
    rw [hs0, hs1, hs2]
    cases h0 : processVertex vs st.fb_width st.fb_height 0 with
    | none => exact ⟨rfl, rfl, rfl⟩
    | some v0 =>
      cases h1 : processVertex vs st.fb_width st.fb_height 1 with
      | none =>
        cases h2 : processVertex vs st.fb_width st.fb_height 2 with
        | none => exact ⟨rfl, rfl, rfl⟩
        | some v2 => exact ⟨rfl, rfl, rfl⟩
      | some v1 =>
        cases h2 : processVertex vs st.fb_width st.fb_height 2 with
        | none => exact ⟨rfl, rfl, rfl⟩
        | some v2 =>
          try dsimp only
          rw [boundingBox_symm st.fb_width st.fb_height v0 v1 v2,
            wire_symm fb v0.spi v1.spi v2.spi st.color_fg]
          by_cases hrp : st.render_pixel = false
          · rw [if_pos hrp, if_pos hrp]
            exact ⟨rfl, rfl, rfl⟩
          · rw [if_neg hrp, if_neg hrp]
            have hz : (crossV4 (v2.pos - v0.pos) (v1.pos - v0.pos)).z =
                -(crossV4 (v1.pos - v0.pos) (v2.pos - v0.pos)).z :=
              crossV4_z_swap _ _
            rcases lt_trichotomy
                ((crossV4 (v1.pos - v0.pos) (v2.pos - v0.pos)).z) 0 with hn | hn | hn
            · rw [if_pos (show (crossV4 (v2.pos - v0.pos) (v1.pos - v0.pos)).z > 0
                  by rw [hz]; linarith),
                if_neg (show ¬(crossV4 (v1.pos - v0.pos) (v2.pos - v0.pos)).z > 0
                  by linarith),
                if_neg (show ¬(crossV4 (v1.pos - v0.pos) (v2.pos - v0.pos)).z = 0
                  by linarith)]
              exact fillStage_swap_congr _ _ _ _ _ _ _ _ _ _ rfl rfl rfl rfl
            · rw [if_neg (show ¬(crossV4 (v2.pos - v0.pos) (v1.pos - v0.pos)).z > 0
                  by rw [hz, hn]; norm_num),
                if_pos (show (crossV4 (v2.pos - v0.pos) (v1.pos - v0.pos)).z = 0
                  by rw [hz, hn]; norm_num),
                if_neg (show ¬(crossV4 (v1.pos - v0.pos) (v2.pos - v0.pos)).z > 0
                  by linarith),
                if_pos hn]
              exact ⟨rfl, rfl, rfl⟩
            · rw [if_neg (show ¬(crossV4 (v2.pos - v0.pos) (v1.pos - v0.pos)).z > 0
                  by rw [hz]; linarith),
                if_neg (show ¬(crossV4 (v2.pos - v0.pos) (v1.pos - v0.pos)).z = 0
                  by rw [hz]; intro hc; linarith),
                if_pos (show (crossV4 (v1.pos - v0.pos) (v2.pos - v0.pos)).z > 0
                  from hn)]
              exact fillStage_swap_congr _ _ _ _ _ _ _ _ _ _ rfl rfl rfl rfl

end RenderHelp
